import Mathlib

/-!
Verification of the metadata cache and search pipeline of the
ExifData_Search-and-Move repository (`exiftool_search_DB.py`,
`exiftool_search.py`).

Python strings are modelled as `List Char`; Python `None` as `Option.none`;
SQL `NULL` text columns as `Option (List Char)`; raised exceptions as the
`Except String` error monad.  Filesystem and database-connection failures are
passed in explicitly (`getmtime` environment, `fail` parameters), matching the
places where the source code touches `os.path.getmtime` and `sqlite3`.
-/

/-- Python strings, modelled as lists of characters. -/
abbrev Str := List Char

/-- Characters stripped by Python `str.strip()` (the ASCII whitespace set). -/
def pyIsSpace (c : Char) : Bool :=
  c = ' ' || c = '\t' || c = '\n' || c = '\r' || c = '\x0b' || c = '\x0c'

/-- ASCII lowering of one character, the effect of Python `str.lower()`
on the character ranges this repository's metadata uses. -/
def lowerChar (c : Char) : Char :=
  if h : 65 ≤ c.toNat ∧ c.toNat ≤ 90 then
    Char.ofNatAux (c.toNat + 32)
      (Or.inl (by omega))
  else c

/-- Python `str.lower()`. -/
def pyLower (s : Str) : Str := s.map lowerChar

/-- Python `str.strip()`: drop whitespace from both ends. -/
def pyStrip (s : Str) : Str :=
  ((s.dropWhile pyIsSpace).reverse.dropWhile pyIsSpace).reverse

/-- Python `needle in hay` on strings: substring containment. -/
def strContains (needle : Str) : Str → Bool
  | [] => needle.isEmpty
  | c :: rest => needle.isPrefixOf (c :: rest) || strContains needle rest

/-- Python `s.split(sep, 1)` for a non-empty separator, in the case where the
separator occurs: returns the text before and after the first occurrence,
`none` when the separator does not occur. -/
def splitFirst (sep : Str) : Str → Option (Str × Str)
  | [] => none
  | c :: rest =>
    if sep.isPrefixOf (c :: rest) then some ([], (c :: rest).drop sep.length)
    else (splitFirst sep rest).map (fun p => (c :: p.1, p.2))

/-- Python `s.split(sep)` for a single-character separator (full split). -/
def splitOnChar (sepc : Char) : Str → List Str
  | [] => [[]]
  | c :: rest =>
    if c = sepc then [] :: splitOnChar sepc rest
    else
      match splitOnChar sepc rest with
      | [] => [[c]]
      | l :: ls => (c :: l) :: ls

/-- Python `s.split('\n')`. -/
def splitLines (s : Str) : List Str := splitOnChar '\n' s

/-- Python `'\n'.join(lines)`. -/
def joinLines : List Str → Str
  | [] => []
  | [l] => l
  | l :: ls => l ++ '\n' :: joinLines ls

/-- The key/value delimiter `": "` of `normalize_metadata`. -/
def sepKV : Str := (": ").data

/-- The section delimiter `"Negative prompt:"` of
`bulk_update_or_insert_metadata`. -/
def negPrompt : Str := ("Negative prompt:").data

/-- One line of `normalize_metadata` (exiftool_search_DB.py lines 144-149):
a line containing `": "` is split at the first occurrence into key and value,
the key is stripped and lowered, the value stripped; a line without `": "`
is dropped (`none`). -/
def normLine (line : Str) : Option Str :=
  match splitFirst sepKV line with
  | none => none
  | some (k, v) => some (pyLower (pyStrip k) ++ sepKV ++ pyStrip v)

/-- `normalize_metadata` on a present string (exiftool_search_DB.py
lines 143-150): process each `'\n'`-line, keep the normalized ones,
rejoin with `'\n'`. -/
def normStr (s : Str) : Str :=
  joinLines ((splitLines s).filterMap normLine)

/-- `normalize_metadata` (exiftool_search_DB.py lines 140-150), including the
`None` passthrough of lines 141-142. -/
def normalize_metadata : Option Str → Option Str
  | none => none
  | some s => some (normStr s)

/-- One row of the `file_metadata` table (exiftool_search_DB.py
lines 120-129).  `file_name` is the primary key (UNIQUE); the two metadata
columns are nullable. -/
structure Row where
  file_name : Str
  file_path : Str
  last_modified : Int
  metadata : Option Str
  metadata_after_prompt : Option Str
  last_updated : Int
deriving DecidableEq, Repr

/-- Effect of one `INSERT ... ON CONFLICT(file_name) DO UPDATE` statement
(exiftool_search_DB.py lines 163-173) on the table: if a row with the same
`file_name` exists it is overwritten in place (rowid and hence scan order
preserved), otherwise the new row is appended. -/
def upsertRow (st : List Row) (r : Row) : List Row :=
  if st.any (fun x => x.file_name = r.file_name) then
    st.map (fun x => if x.file_name = r.file_name then r else x)
  else st ++ [r]

/-- The row built for one record inside `bulk_update_or_insert_metadata`
(exiftool_search_DB.py lines 156-159 and 173): the raw metadata is split at
the first `"Negative prompt:"`; the part before it (the whole text when the
delimiter is absent) is stripped and normalized; the part after it is
stripped and normalized when present, and the empty string otherwise. -/
def processRecord (mt now : Int) (file_name file_path metadata : Str) : Row :=
  match splitFirst negPrompt metadata with
  | none =>
    ⟨file_name, file_path, mt, some (normStr (pyStrip metadata)), some [], now⟩
  | some (a, b) =>
    ⟨file_name, file_path, mt, some (normStr (pyStrip a)),
      some (normStr (pyStrip b)), now⟩

/-- Filesystem environment for the upsert: `os.path.getmtime`, which either
returns a modification time or raises (`.error`). -/
structure FsEnv where
  getmtime : Str → Except String Int

/-- `bulk_update_or_insert_metadata` (exiftool_search_DB.py lines 152-174):
one transaction over the whole batch, one `current_time` stamp (`now`) for
all records, records processed in list order.  An exception from
`os.path.getmtime` (line 161) propagates out of the `with` block, which rolls
the transaction back: the `.error` result carries no state because the store
is left as it was. -/
def bulk_update_or_insert_metadata (env : FsEnv) (now : Int) (st : List Row) :
    List (Str × Str × Str) → Except String (List Row)
  | [] => .ok st
  | (n, p, m) :: rest =>
    match env.getmtime p with
    | .error e => .error e
    | .ok mt =>
      bulk_update_or_insert_metadata env now
        (upsertRow st (processRecord mt now n p m)) rest

/-- `get_metadata` (exiftool_search_DB.py lines 259-281): an empty path
raises `ValueError` before any database access; a connection/read failure
(`fail = some e`) is logged and re-raised (lines 276-281); otherwise the
first row whose `file_path` matches is returned, or `(None, None)`. -/
def get_metadata (fail : Option String) (st : List Row) (p : Str) :
    Except String (Option Str × Option Str) :=
  if p = [] then .error "ValueError: file_path is a required parameter"
  else
    match fail with
    | some e => .error e
    | none =>
      match st.find? (fun r => r.file_path = p) with
      | some r => .ok (r.metadata, r.metadata_after_prompt)
      | none => .ok (none, none)

/-- `update_file_path` (exiftool_search_DB.py lines 221-239): rewrites
`file_path` and `last_updated` on every row whose path matches `old`
(a no-match only logs a warning); any `sqlite3.Error` or other exception is
caught and logged, never re-raised, so a failure (`fail = some e`) returns
normally with the store unchanged. -/
def update_file_path (fail : Option String) (st : List Row) (old new : Str)
    (now : Int) : Except String (List Row) :=
  match fail with
  | some _ => .ok st
  | none =>
    .ok (st.map (fun r =>
      if r.file_path = old then { r with file_path := new, last_updated := now }
      else r))

/-- `batch_update_file_paths` (exiftool_search_DB.py lines 241-257): the
batched form of the same UPDATE, applied per move in list order; all
exceptions are caught and logged, never re-raised. -/
def batch_update_file_paths (fail : Option String) (st : List Row)
    (moves : List (Str × Str)) (now : Int) : Except String (List Row) :=
  match fail with
  | some _ => .ok st
  | none =>
    .ok (moves.foldl (fun acc mv =>
      acc.map (fun r =>
        if r.file_path = mv.1 then
          { r with file_path := mv.2, last_updated := now }
        else r)) st)

/-- Python truthiness of an optional string: `None` and `""` are falsy. -/
def truthy : Option Str → Bool
  | none => false
  | some s => !s.isEmpty

/-- `os.path.basename` on a POSIX path: the text after the last `'/'`. -/
def basename (p : Str) : Str :=
  (p.reverse.takeWhile (fun c => c ≠ '/')).reverse

/-- `os.path.join(a, b)` on POSIX paths, for the cases the code exercises. -/
def pyJoin (a b : Str) : Str :=
  if b.head? = some '/' then b
  else if a = [] then b
  else if a.getLast? = some '/' then a ++ b
  else a ++ '/' :: b

/-- `process_file` (exiftool_search.py lines 20-43).  `dbFail` models a
database failure inside `get_metadata` (caught by the outer `except`, the
file is reported as not moved); `moveFail` models `shutil.move` raising
(caught by the inner `except`, logged, the function falls through to the
not-moved result and `update_file_path` is not called).  The result is the
returned triple `(moved, file_path, new_path)` together with the store after
the call. -/
def process_file (dbFail moveFail : Option String) (st : List Row)
    (file_path target_dir metadata_key metadata_value search_mode : Str)
    (now : Int) : (Bool × Str × Option Str) × List Row :=
  match get_metadata dbFail st file_path with
  | .error _ => ((false, file_path, none), st)
  | .ok (m, ma) =>
    if truthy m && truthy ma then
      let mtext := m.getD []
      let matext := ma.getD []
      let toSearch :=
        if search_mode = ("1").data then mtext else mtext ++ ' ' :: matext
      if strContains metadata_key toSearch &&
          strContains metadata_value toSearch then
        let newPath := pyJoin target_dir (basename file_path)
        match moveFail with
        | some _ => ((false, file_path, none), st)
        | none =>
          match update_file_path none st file_path newPath now with
          | .ok st' => ((true, file_path, some newPath), st')
          | .error _ => ((true, file_path, some newPath), st)
      else ((false, file_path, none), st)
    else ((false, file_path, none), st)

/-- JSON values, as produced by `json.loads`.  A number keeps its lexeme:
`extract_model_from_metadata` never reads a numeric value, only its type
matters (indexing or iterating one raises `TypeError`). -/
inductive JVal where
  | null : JVal
  | bool : Bool → JVal
  | num : Str → JVal
  | str : Str → JVal
  | arr : List JVal → JVal
  | obj : List (Str × JVal) → JVal
deriving Repr

/-- Skip JSON whitespace. -/
def jSkipWs (s : Str) : Str :=
  s.dropWhile (fun c => c = ' ' || c = '\t' || c = '\n' || c = '\r')

/-- Decode one hexadecimal digit. -/
def jHexDigit (c : Char) : Option Nat :=
  if '0' ≤ c ∧ c ≤ '9' then some (c.toNat - 48)
  else if 'a' ≤ c ∧ c ≤ 'f' then some (c.toNat - 87)
  else if 'A' ≤ c ∧ c ≤ 'F' then some (c.toNat - 55)
  else none

/-- Parse the body of a JSON string (after the opening quote), with the
standard escapes. -/
def jParseStringBody : Str → Option (Str × Str)
  | [] => none
  | '"' :: rest => some ([], rest)
  | '\\' :: e :: rest =>
    match e with
    | '"' => (jParseStringBody rest).map (fun p => ('"' :: p.1, p.2))
    | '\\' => (jParseStringBody rest).map (fun p => ('\\' :: p.1, p.2))
    | '/' => (jParseStringBody rest).map (fun p => ('/' :: p.1, p.2))
    | 'b' => (jParseStringBody rest).map (fun p => ('\x08' :: p.1, p.2))
    | 'f' => (jParseStringBody rest).map (fun p => ('\x0c' :: p.1, p.2))
    | 'n' => (jParseStringBody rest).map (fun p => ('\n' :: p.1, p.2))
    | 'r' => (jParseStringBody rest).map (fun p => ('\r' :: p.1, p.2))
    | 't' => (jParseStringBody rest).map (fun p => ('\t' :: p.1, p.2))
    | 'u' =>
      match rest with
      | h1 :: h2 :: h3 :: h4 :: rest' =>
        match jHexDigit h1, jHexDigit h2, jHexDigit h3, jHexDigit h4 with
        | some a, some b, some c, some d =>
          let n := ((a * 16 + b) * 16 + c) * 16 + d
          if h : n.isValidChar then
            (jParseStringBody rest').map
              (fun p => (Char.ofNatAux n h :: p.1, p.2))
          else none
        | _, _, _, _ => none
      | _ => none
    | _ => none
  | c :: rest =>
    if c.toNat < 32 then none
    else (jParseStringBody rest).map (fun p => (c :: p.1, p.2))

/-- Parse a JSON number lexeme (sign, integer part, optional fraction and
exponent); the lexeme is kept verbatim. -/
def jParseNumber (s : Str) : Option (Str × Str) :=
  let (sign, s1) :=
    match s with
    | '-' :: r => (['-'], r)
    | _ => (([] : Str), s)
  let intPart := s1.takeWhile (fun c => '0' ≤ c ∧ c ≤ '9')
  let s2 := s1.drop intPart.length
  if intPart = [] then none
  else
    let (frac, s3) :=
      match s2 with
      | '.' :: r =>
        let ds := r.takeWhile (fun c => '0' ≤ c ∧ c ≤ '9')
        if ds = [] then (([] : Str), s2) else ('.' :: ds, r.drop ds.length)
      | _ => (([] : Str), s2)
    if frac = [] ∧ s2.head? = some '.' then none
    else
      let (expo, s4) :=
        match s3 with
        | e :: r =>
          if e = 'e' ∨ e = 'E' then
            let (esign, r1) :=
              match r with
              | '+' :: r' => (['+'], r')
              | '-' :: r' => (['-'], r')
              | _ => (([] : Str), r)
            let ds := r1.takeWhile (fun c => '0' ≤ c ∧ c ≤ '9')
            if ds = [] then (([] : Str), s3)
            else (e :: esign ++ ds, r1.drop ds.length)
          else (([] : Str), s3)
        | _ => (([] : Str), s3)
      some (sign ++ intPart ++ frac ++ expo, s4)

mutual

/-- Fueled recursive-descent parser for one JSON value. -/
def jParseVal : Nat → Str → Option (JVal × Str)
  | 0, _ => none
  | fuel + 1, s =>
    match jSkipWs s with
    | '"' :: rest => (jParseStringBody rest).map (fun p => (JVal.str p.1, p.2))
    | '[' :: rest => jParseArr fuel (jSkipWs rest)
    | '{' :: rest => jParseObj fuel (jSkipWs rest)
    | 't' :: 'r' :: 'u' :: 'e' :: rest => some (JVal.bool true, rest)
    | 'f' :: 'a' :: 'l' :: 's' :: 'e' :: rest => some (JVal.bool false, rest)
    | 'n' :: 'u' :: 'l' :: 'l' :: rest => some (JVal.null, rest)
    | s' => (jParseNumber s').map (fun p => (JVal.num p.1, p.2))

/-- Items of a JSON array, the opening bracket already consumed,
leading whitespace already skipped. -/
def jParseArr : Nat → Str → Option (JVal × Str)
  | 0, _ => none
  | fuel + 1, s =>
    match s with
    | ']' :: rest => some (JVal.arr [], rest)
    | _ =>
      match jParseVal fuel s with
      | none => none
      | some (v, rest) => jParseArrTail fuel [v] (jSkipWs rest)

/-- Remaining items of a non-empty JSON array. -/
def jParseArrTail : Nat → List JVal → Str → Option (JVal × Str)
  | 0, _, _ => none
  | fuel + 1, acc, s =>
    match s with
    | ']' :: rest => some (JVal.arr acc.reverse, rest)
    | ',' :: rest =>
      match jParseVal fuel rest with
      | none => none
      | some (v, rest') => jParseArrTail fuel (v :: acc) (jSkipWs rest')
    | _ => none

/-- Members of a JSON object, the opening brace already consumed,
leading whitespace already skipped. -/
def jParseObj : Nat → Str → Option (JVal × Str)
  | 0, _ => none
  | fuel + 1, s =>
    match s with
    | '}' :: rest => some (JVal.obj [], rest)
    | _ =>
      match jParseMember fuel s with
      | none => none
      | some (kv, rest) => jParseObjTail fuel [kv] (jSkipWs rest)

/-- Remaining members of a non-empty JSON object. -/
def jParseObjTail : Nat → List (Str × JVal) → Str → Option (JVal × Str)
  | 0, _, _ => none
  | fuel + 1, acc, s =>
    match s with
    | '}' :: rest => some (JVal.obj acc.reverse, rest)
    | ',' :: rest =>
      match jParseMember fuel (jSkipWs rest) with
      | none => none
      | some (kv, rest') => jParseObjTail fuel (kv :: acc) (jSkipWs rest')
    | _ => none

/-- One `"key": value` member of a JSON object. -/
def jParseMember : Nat → Str → Option ((Str × JVal) × Str)
  | 0, _ => none
  | fuel + 1, s =>
    match s with
    | '"' :: rest =>
      match jParseStringBody rest with
      | none => none
      | some (k, rest') =>
        match jSkipWs rest' with
        | ':' :: rest'' =>
          (jParseVal fuel rest'').map (fun p => ((k, p.1), p.2))
        | _ => none
    | _ => none

end

/-- `json.loads`: parse one JSON document, requiring only trailing
whitespace after it; `none` models `json.JSONDecodeError`. -/
def jsonLoads (s : Str) : Option JVal :=
  match jParseVal (2 * s.length + 4) s with
  | none => none
  | some (v, rest) => if jSkipWs rest = [] then some v else none

/-- Phase one of `extract_model_from_metadata` (exiftool_search_DB.py
lines 285-288): scan the comma-separated segments for one containing
`"Model:"` or `"model:"`; on the first hit, the model is the stripped text
after the first colon of that segment. -/
def findLabel : List Str → Option Str
  | [] => none
  | seg :: rest =>
    if strContains (("Model:").data) seg || strContains (("model:").data) seg
    then
      match splitFirst [':'] seg with
      | some (_, v) => some (pyStrip v)
      | none => some []
    else findLabel rest

/-- The loop over the parsed JSON array (exiftool_search_DB.py
lines 297-301): Python `for item in json_data` with
`if 'modelName' in item: model = item['modelName'].strip(); if model: break`.
Membership on a non-container raises `TypeError`; indexing a string or a list
with a string key raises `TypeError`; `.strip()` on a non-string value raises
`AttributeError`.  None of those are caught by the `except
json.JSONDecodeError` handler, so they surface as `.error`. -/
def civitaiLoop : List JVal → Option Str → Except String (Option Str)
  | [], m => .ok m
  | item :: rest, m =>
    match item with
    | .obj fs =>
      if fs.any (fun f => f.1 = ("modelName").data) then
        match fs.reverse.find? (fun f => f.1 = ("modelName").data) with
        | some (_, .str s) =>
          let m' := pyStrip s
          if m'.isEmpty then civitaiLoop rest (some m') else .ok (some m')
        | some _ => .error "AttributeError: strip on a non-string value"
        | none => .error "unreachable: membership succeeded"
      else civitaiLoop rest m
    | .str s =>
      if strContains (("modelName").data) s then
        .error "TypeError: string indices must be integers"
      else civitaiLoop rest m
    | .arr xs =>
      if xs.any (fun x =>
          match x with
          | .str t => t = ("modelName").data
          | _ => false) then
        .error "TypeError: list indices must be integers"
      else civitaiLoop rest m
    | _ => .error "TypeError: argument is not iterable"

/-- `extract_model_from_metadata` (exiftool_search_DB.py lines 283-306):
first look for a `Model:`/`model:` label among the comma-separated segments;
failing that, take the stripped text after `"Civitai resources:"`, truncate
it after the first `']'` (re-appending the bracket), `json.loads` it — a
parse failure is caught and leaves the model `None` — and scan the items for
a non-empty `modelName`.  Iterating a parsed dict visits its keys, iterating
a parsed string visits its characters, iterating any other non-list raises
`TypeError`. -/
def extract_model_from_metadata (m : Str) : Except String (Option Str) :=
  match findLabel (splitOnChar ',' m) with
  | some mdl => .ok (some mdl)
  | none =>
    if strContains (("Civitai resources:").data) m then
      match splitFirst (("Civitai resources:").data) m with
      | none => .ok none
      | some (_, tail) =>
        let js0 := pyStrip tail
        let js :=
          (match splitFirst [']'] js0 with
           | some (a, _) => a
           | none => js0) ++ [']']
        match jsonLoads js with
        | none => .ok none
        | some (.arr xs) => civitaiLoop xs none
        | some (.obj fs) => civitaiLoop (fs.map (fun f => JVal.str f.1)) none
        | some (.str s) => civitaiLoop (s.map (fun c => JVal.str [c])) none
        | some _ => .error "TypeError: argument is not iterable"
    else .ok none

/-- A line already in the canonical form the normalizer produces:
`lowercased-stripped-key: stripped-value` (the key being what
`normalize_metadata` would parse as the key of that line). -/
def canonicalLine (l : Str) : Bool :=
  match splitFirst sepKV l with
  | none => false
  | some (k, v) => decide (pyLower (pyStrip k) = k) && decide (pyStrip v = v)

/-- The leading half of `str.strip()`. -/
def dropLeading (s : Str) : Str := s.dropWhile pyIsSpace

/-- The trailing half of `str.strip()`. -/
def dropTrailing (s : Str) : Str := (s.reverse.dropWhile pyIsSpace).reverse

theorem isPrefixOf_iff {l1 l2 : Str} : l1.isPrefixOf l2 = true ↔ l1 <+: l2 :=
  List.isPrefixOf_iff_prefix

theorem char_toNat_inj {a b : Char} (h : a.toNat = b.toNat) : a = b :=
  Char.ext (UInt32.ext h)

theorem char_eq_iff_toNat {c d : Char} : c = d ↔ c.toNat = d.toNat :=
  ⟨fun h => by rw [h], fun h => char_toNat_inj h⟩

theorem lowerChar_toNat (c : Char) :
    (lowerChar c).toNat =
      if 65 ≤ c.toNat ∧ c.toNat ≤ 90 then c.toNat + 32 else c.toNat := by
  unfold lowerChar
  by_cases h : 65 ≤ c.toNat ∧ c.toNat ≤ 90
  · rw [dif_pos h, if_pos h]
    rfl
  · rw [dif_neg h, if_neg h]

theorem lowerChar_eq_self {c : Char} (h : ¬(65 ≤ c.toNat ∧ c.toNat ≤ 90)) :
    lowerChar c = c := by
  unfold lowerChar
  rw [dif_neg h]

theorem lowerChar_idem (c : Char) : lowerChar (lowerChar c) = lowerChar c := by
  by_cases h : 65 ≤ c.toNat ∧ c.toNat ≤ 90
  · have h1 : (lowerChar c).toNat = c.toNat + 32 := by
      rw [lowerChar_toNat, if_pos h]
    exact lowerChar_eq_self (by omega)
  · rw [lowerChar_eq_self h, lowerChar_eq_self h]

theorem pyIsSpace_iff (c : Char) :
    pyIsSpace c = true ↔
      (c.toNat = 32 ∨ c.toNat = 9 ∨ c.toNat = 10 ∨ c.toNat = 13 ∨
        c.toNat = 11 ∨ c.toNat = 12) := by
  have h32 : (' ' : Char).toNat = 32 := by decide
  have h9 : ('\t' : Char).toNat = 9 := by decide
  have h10 : ('\n' : Char).toNat = 10 := by decide
  have h13 : ('\r' : Char).toNat = 13 := by decide
  have h11 : ('\x0b' : Char).toNat = 11 := by decide
  have h12 : ('\x0c' : Char).toNat = 12 := by decide
  unfold pyIsSpace
  simp only [Bool.or_eq_true, decide_eq_true_eq, char_eq_iff_toNat,
    h32, h9, h10, h13, h11, h12]
  tauto

theorem pyIsSpace_lowerChar (c : Char) :
    pyIsSpace (lowerChar c) = pyIsSpace c := by
  by_cases h : 65 ≤ c.toNat ∧ c.toNat ≤ 90
  · have h1 : (lowerChar c).toNat = c.toNat + 32 := by
      rw [lowerChar_toNat, if_pos h]
    have ha : pyIsSpace (lowerChar c) = false := by
      apply Bool.eq_false_iff.mpr
      intro ht
      have := (pyIsSpace_iff _).mp ht
      omega
    have hb : pyIsSpace c = false := by
      apply Bool.eq_false_iff.mpr
      intro ht
      have := (pyIsSpace_iff _).mp ht
      omega
    rw [ha, hb]
  · rw [lowerChar_eq_self h]

theorem lowerChar_eq_fixed {t : Char} (ht : t.toNat < 97 ∨ 122 < t.toNat)
    {c : Char} (h : lowerChar c = t) : c = t := by
  by_cases hr : 65 ≤ c.toNat ∧ c.toNat ≤ 90
  · exfalso
    have h1 : (lowerChar c).toNat = c.toNat + 32 := by
      rw [lowerChar_toNat, if_pos hr]
    rw [h] at h1
    omega
  · rw [← h, lowerChar_eq_self hr]


theorem pyStrip_eq (s : Str) : pyStrip s = dropTrailing (dropLeading s) := rfl

theorem dropLeading_idem (s : Str) :
    dropLeading (dropLeading s) = dropLeading s :=
  List.dropWhile_idempotent _ _

theorem dropTrailing_idem (s : Str) :
    dropTrailing (dropTrailing s) = dropTrailing s := by
  unfold dropTrailing
  rw [List.reverse_reverse, List.dropWhile_idempotent]

theorem dropTrailing_pre (s : Str) : dropTrailing s <+: s := by
  have h := List.dropWhile_suffix (l := s.reverse) pyIsSpace
  have h2 := List.reverse_prefix.mpr h
  rwa [List.reverse_reverse] at h2

theorem dropLeading_of_fixed {s : Str} (h : dropLeading s = s) :
    dropLeading (dropTrailing s) = dropTrailing s := by
  rcases dropTrailing_pre s with ⟨t, ht⟩
  cases hd : dropTrailing s with
  | nil => rfl
  | cons c u =>
    rw [hd] at ht
    have hs : s = c :: (u ++ t) := by rw [← ht]; simp
    have hc : pyIsSpace c = false := by
      by_contra hcc
      have hct : pyIsSpace c = true := by
        cases hx : pyIsSpace c
        · exact absurd hx hcc
        · rfl
      have hlen : (dropLeading s).length ≤ (u ++ t).length := by
        rw [hs]
        unfold dropLeading
        rw [List.dropWhile_cons, if_pos hct]
        exact (List.dropWhile_suffix _).sublist.length_le
      rw [h, hs] at hlen
      simp at hlen
    unfold dropLeading
    rw [List.dropWhile_cons, hc]
    simp

theorem pyStrip_idem (s : Str) : pyStrip (pyStrip s) = pyStrip s := by
  rw [pyStrip_eq, pyStrip_eq,
    dropLeading_of_fixed (dropLeading_idem s), dropTrailing_idem]

theorem pyStrip_within (s : Str) : pyStrip s <:+: s := by
  rw [pyStrip_eq]
  exact (dropTrailing_pre (dropLeading s)).isInfix.trans
    (List.dropWhile_suffix pyIsSpace).isInfix

theorem pyStrip_pyLower (s : Str) :
    pyStrip (pyLower s) = pyLower (pyStrip s) := by
  have hcomp : pyIsSpace ∘ lowerChar = pyIsSpace := funext pyIsSpace_lowerChar
  unfold pyStrip pyLower
  rw [List.dropWhile_map, hcomp, ← List.map_reverse, List.dropWhile_map,
    hcomp, ← List.map_reverse]

theorem pyLower_idem (s : Str) : pyLower (pyLower s) = pyLower s := by
  unfold pyLower
  rw [List.map_map]
  exact List.map_congr_left (fun a _ => lowerChar_idem a)

theorem keyNorm_idem (k : Str) :
    pyLower (pyStrip (pyLower (pyStrip k))) = pyLower (pyStrip k) := by
  rw [pyStrip_pyLower, pyStrip_idem, pyLower_idem]

theorem infix_two_map {f : Char → Char} {a b : Char}
    (ha : ∀ c, f c = a → c = a) (hb : ∀ c, f c = b → c = b) {s : Str}
    (h : [a, b] <:+: s.map f) : [a, b] <:+: s := by
  induction s with
  | nil => simp_all
  | cons c t ih =>
    rw [List.map_cons] at h
    rcases List.infix_cons_iff.mp h with hpre | hinf
    · rcases List.cons_prefix_cons.mp hpre with ⟨h1, h2⟩
      cases t with
      | nil => simp at h2
      | cons d t' =>
        rw [List.map_cons] at h2
        rcases List.cons_prefix_cons.mp h2 with ⟨h3, _⟩
        have hc : c = a := ha c h1.symm
        have hd : d = b := hb d h3.symm
        subst hc; subst hd
        exact List.infix_cons_iff.mpr
          (Or.inl (List.cons_prefix_cons.mpr
            ⟨rfl, List.cons_prefix_cons.mpr ⟨rfl, List.nil_prefix⟩⟩))
    · exact List.infix_cons_iff.mpr (Or.inr (ih hinf))

theorem mem_pyLower {t : Char} (ht : t.toNat < 97 ∨ 122 < t.toNat) {s : Str}
    (h : t ∈ pyLower s) : t ∈ s := by
  rcases List.mem_map.mp h with ⟨c, hc, hfc⟩
  rwa [lowerChar_eq_fixed ht hfc] at hc

theorem splitFirst_eq {sep : Str} :
    ∀ {s a b : Str}, splitFirst sep s = some (a, b) → s = a ++ sep ++ b := by
  intro s
  induction s with
  | nil => intro a b h; simp [splitFirst] at h
  | cons c t ih =>
    intro a b h
    simp only [splitFirst] at h
    split at h
    · rename_i hp
      rcases isPrefixOf_iff.mp hp with ⟨u, hu⟩
      injection h with h'
      injection h' with h1 h2
      subst h1
      rw [← h2, ← hu, List.drop_left]
      simp
    · cases hs : splitFirst sep t with
      | none => rw [hs] at h; simp at h
      | some p =>
        rw [hs] at h
        simp at h
        rcases h with ⟨h1, h2⟩
        have := ih hs
        rw [← h1, ← h2]
        simp [this]

theorem splitFirst_pre {sep : Str} (hsep : sep ≠ []) :
    ∀ {s a b : Str}, splitFirst sep s = some (a, b) → ¬ sep <:+: a := by
  intro s
  induction s with
  | nil => intro a b h; simp [splitFirst] at h
  | cons c t ih =>
    intro a b h
    simp only [splitFirst] at h
    split at h
    · injection h with h'
      injection h' with h1 _
      subst h1
      simp [List.infix_nil, hsep]
    · rename_i hp
      cases hs : splitFirst sep t with
      | none => rw [hs] at h; simp at h
      | some p =>
        rw [hs] at h
        simp at h
        rcases h with ⟨h1, _⟩
        rw [← h1]
        intro hin
        rcases List.infix_cons_iff.mp hin with hpre | hinf
        · have h2 := splitFirst_eq hs
          have h3 : (c :: p.1) <+: (c :: t) := by
            refine ⟨sep ++ p.2, ?_⟩
            simp [h2]
          exact hp (isPrefixOf_iff.mpr (hpre.trans h3))
        · exact ih hs hinf

theorem splitFirst_none_iff {sep : Str} (hsep : sep ≠ []) :
    ∀ {s : Str}, splitFirst sep s = none ↔ ¬ sep <:+: s := by
  intro s
  induction s with
  | nil => simp [splitFirst, List.infix_nil, hsep]
  | cons c t ih =>
    simp only [splitFirst]
    constructor
    · intro h
      split at h
      · simp at h
      · rename_i hp
        intro hin
        rcases List.infix_cons_iff.mp hin with hpre | hinf
        · exact hp (isPrefixOf_iff.mpr hpre)
        · cases hs : splitFirst sep t with
          | none => exact (ih.mp hs) hinf
          | some p => rw [hs] at h; simp at h
    · intro hni
      split
      · rename_i hp
        exact absurd (List.infix_cons_iff.mpr
          (Or.inl (isPrefixOf_iff.mp hp))) hni
      · cases hs : splitFirst sep t with
        | none => simp
        | some p =>
          exfalso
          have h2 := splitFirst_eq hs
          apply hni
          apply List.infix_cons_iff.mpr
          right
          rw [h2]
          exact ⟨p.1, p.2, rfl⟩

theorem strContains_iff (n : Str) :
    ∀ h : Str, strContains n h = true ↔ n <:+: h := by
  intro h
  induction h with
  | nil => simp [strContains, List.isEmpty_iff, List.infix_nil]
  | cons c t ih =>
    simp only [strContains, Bool.or_eq_true, List.infix_cons_iff,
      isPrefixOf_iff, ih]

theorem splitFirst_boundary {a b : Char} (hab : a ≠ b) :
    ∀ {k : Str}, ¬ [a, b] <:+: k →
      ∀ v : Str, splitFirst [a, b] (k ++ [a, b] ++ v) = some (k, v) := by
  intro k
  induction k with
  | nil =>
    intro _ v
    have hp : ([a, b] : Str).isPrefixOf (a :: b :: v) = true :=
      isPrefixOf_iff.mpr ⟨v, rfl⟩
    simp only [List.nil_append, List.cons_append, splitFirst, hp]
    simp
  | cons c k' ih =>
    intro hk v
    have hk' : ¬ [a, b] <:+: k' := fun hin =>
      hk (List.infix_cons_iff.mpr (Or.inr hin))
    have hstep : splitFirst [a, b] (k' ++ [a, b] ++ v) = some (k', v) :=
      ih hk' v
    have hp : ([a, b] : Str).isPrefixOf (c :: (k' ++ [a, b] ++ v)) = false := by
      cases hx : ([a, b] : Str).isPrefixOf (c :: (k' ++ [a, b] ++ v))
      case false => rfl
      case true =>
        exfalso
        rcases List.cons_prefix_cons.mp (isPrefixOf_iff.mp hx)
          with ⟨h1, h2⟩
        cases k' with
        | nil =>
          rcases List.cons_prefix_cons.mp h2 with ⟨h3, _⟩
          exact hab h3.symm
        | cons d k'' =>
          rcases List.cons_prefix_cons.mp h2 with ⟨h3, _⟩
          apply hk
          apply List.infix_cons_iff.mpr
          left
          exact List.cons_prefix_cons.mpr ⟨h1,
            List.cons_prefix_cons.mpr ⟨h3, List.nil_prefix⟩⟩
    have : (c :: k') ++ [a, b] ++ v = c :: (k' ++ [a, b] ++ v) := by simp
    rw [this]
    simp only [splitFirst, hp]
    rw [hstep]
    rfl

theorem splitOnChar_ne_nil (sc : Char) : ∀ s : Str, splitOnChar sc s ≠ [] := by
  intro s
  induction s with
  | nil => simp [splitOnChar]
  | cons c t ih =>
    simp only [splitOnChar]
    split
    · simp
    · cases hs : splitOnChar sc t with
      | nil => simp
      | cons l ls => simp

theorem splitOnChar_not_mem (sc : Char) :
    ∀ s : Str, ∀ l ∈ splitOnChar sc s, sc ∉ l := by
  intro s
  induction s with
  | nil =>
    intro l hl
    simp [splitOnChar] at hl
    simp [hl]
  | cons c t ih =>
    intro l hl
    simp only [splitOnChar] at hl
    split at hl
    · rcases List.mem_cons.mp hl with h | h
      · simp [h]
      · exact ih l h
    · rename_i hcn
      cases hs : splitOnChar sc t with
      | nil => exact absurd hs (splitOnChar_ne_nil sc t)
      | cons x xs =>
        rw [hs] at hl
        rcases List.mem_cons.mp hl with h | h
        · subst h
          intro hmem
          rcases List.mem_cons.mp hmem with h' | h'
          · exact hcn h'.symm
          · exact ih x (by rw [hs]; exact List.mem_cons_self x xs) h'
        · exact ih l (by rw [hs]; exact List.mem_cons_of_mem x h)

theorem joinLines_cons₂ (x y : Str) (z : List Str) :
    joinLines (x :: y :: z) = x ++ '\n' :: joinLines (y :: z) := rfl

theorem joinLines_splitOnChar :
    ∀ s : Str, joinLines (splitOnChar '\n' s) = s := by
  intro s
  induction s with
  | nil => rfl
  | cons c t ih =>
    simp only [splitOnChar]
    by_cases hc : c = '\n'
    · rw [if_pos hc]
      cases hs : splitOnChar '\n' t with
      | nil => exact absurd hs (splitOnChar_ne_nil '\n' t)
      | cons l ls =>
        rw [joinLines_cons₂]
        rw [hs] at ih
        rw [ih, hc]
        rfl
    · rw [if_neg hc]
      cases hs : splitOnChar '\n' t with
      | nil => exact absurd hs (splitOnChar_ne_nil '\n' t)
      | cons l ls =>
        rw [hs] at ih
        cases ls with
        | nil =>
          simp only [joinLines] at ih ⊢
          rw [ih]
        | cons l2 ls2 =>
          rw [joinLines_cons₂] at ih ⊢
          rw [List.cons_append, ih]

theorem splitOnChar_of_not_mem {sc : Char} :
    ∀ {l : Str}, sc ∉ l → splitOnChar sc l = [l] := by
  intro l
  induction l with
  | nil => intro _; rfl
  | cons c t ih =>
    intro h
    have hc : ¬ c = sc := fun he => h (by rw [he]; exact List.mem_cons_self _ _)
    have ht : sc ∉ t := fun hm => h (List.mem_cons_of_mem c hm)
    simp only [splitOnChar, if_neg hc, ih ht]

theorem splitOnChar_append_cons {sc : Char} :
    ∀ {l : Str}, sc ∉ l →
      ∀ r : Str, splitOnChar sc (l ++ sc :: r) = l :: splitOnChar sc r := by
  intro l
  induction l with
  | nil =>
    intro _ r
    simp [splitOnChar]
  | cons c t ih =>
    intro h r
    have hc : ¬ c = sc := fun he => h (by rw [he]; exact List.mem_cons_self _ _)
    have ht : sc ∉ t := fun hm => h (List.mem_cons_of_mem c hm)
    simp only [List.cons_append, splitOnChar, if_neg hc]
    rw [show t.append (sc :: r) = t ++ sc :: r from rfl, ih ht r]

theorem splitOnChar_joinLines :
    ∀ L : List Str, L ≠ [] → (∀ l ∈ L, '\n' ∉ l) →
      splitOnChar '\n' (joinLines L) = L := by
  intro L
  induction L with
  | nil => intro h; exact absurd rfl h
  | cons l ls ih =>
    intro _ hmem
    cases ls with
    | nil =>
      simp only [joinLines]
      exact splitOnChar_of_not_mem (hmem l (List.mem_cons_self _ _))
    | cons l2 ls2 =>
      rw [joinLines_cons₂,
        splitOnChar_append_cons (hmem l (List.mem_cons_self _ _))]
      rw [ih (by simp) (fun x hx => hmem x (List.mem_cons_of_mem l hx))]

theorem filterMap_fixed {f : Str → Option Str} :
    ∀ {L : List Str}, (∀ o ∈ L, f o = some o) → L.filterMap f = L := by
  intro L
  induction L with
  | nil => intro _; rfl
  | cons x xs ih =>
    intro h
    rw [List.filterMap_cons, h x (List.mem_cons_self _ _),
      ih (fun o ho => h o (List.mem_cons_of_mem x ho))]

theorem sepKV_chars : sepKV = [':', ' '] := by decide

theorem sepKV_ne_nil : sepKV ≠ [] := by decide

theorem colon_fixed : ∀ c, lowerChar c = ':' → c = ':' := fun _ h =>
  lowerChar_eq_fixed (by decide) h

theorem space_fixed : ∀ c, lowerChar c = ' ' → c = ' ' := fun _ h =>
  lowerChar_eq_fixed (by decide) h

theorem normLine_out_fixed {line o : Str} (h : normLine line = some o) :
    normLine o = some o := by
  unfold normLine at h ⊢
  cases hs : splitFirst sepKV line with
  | none => rw [hs] at h; simp at h
  | some kv =>
    obtain ⟨k, v⟩ := kv
    rw [hs] at h
    injection h with ho
    have hnk : ¬ sepKV <:+: k := splitFirst_pre sepKV_ne_nil hs
    have hnk' : ¬ sepKV <:+: pyLower (pyStrip k) := by
      intro hin
      apply hnk
      have h1 : sepKV <:+: pyStrip k := by
        rw [sepKV_chars] at hin ⊢
        exact infix_two_map colon_fixed space_fixed hin
      exact h1.trans (pyStrip_within k)
    have hsp : splitFirst sepKV (pyLower (pyStrip k) ++ sepKV ++ pyStrip v) =
        some (pyLower (pyStrip k), pyStrip v) := by
      rw [sepKV_chars] at hnk' ⊢
      exact splitFirst_boundary (by decide) hnk' (pyStrip v)
    rw [← ho, hsp]
    show some (pyLower (pyStrip (pyLower (pyStrip k))) ++ sepKV ++
      pyStrip (pyStrip v)) = some (pyLower (pyStrip k) ++ sepKV ++ pyStrip v)
    rw [keyNorm_idem, pyStrip_idem]

theorem normLine_no_newline {line o : Str} (hl : '\n' ∉ line)
    (h : normLine line = some o) : '\n' ∉ o := by
  unfold normLine at h
  cases hs : splitFirst sepKV line with
  | none => rw [hs] at h; simp at h
  | some kv =>
    obtain ⟨k, v⟩ := kv
    rw [hs] at h
    injection h with ho
    rw [splitFirst_eq hs] at hl
    intro hmem
    rw [← ho] at hmem
    rcases List.mem_append.mp hmem with hm | hm
    · rcases List.mem_append.mp hm with hm2 | hm2
      · have h1 : '\n' ∈ pyStrip k := mem_pyLower (by decide) hm2
        have h2 : '\n' ∈ k := (pyStrip_within k).sublist.subset h1
        exact hl (List.mem_append.mpr (Or.inl (List.mem_append.mpr (Or.inl h2))))
      · exact hl (List.mem_append.mpr (Or.inl (List.mem_append.mpr (Or.inr hm2))))
    · have h2 : '\n' ∈ v := (pyStrip_within v).sublist.subset hm
      exact hl (List.mem_append.mpr (Or.inr h2))

theorem canonical_normLine {l : Str} (h : canonicalLine l = true) :
    normLine l = some l := by
  unfold canonicalLine at h
  cases hs : splitFirst sepKV l with
  | none => rw [hs] at h; simp at h
  | some kv =>
    obtain ⟨k, v⟩ := kv
    rw [hs] at h
    simp only [Bool.and_eq_true, decide_eq_true_eq] at h
    obtain ⟨h1, h2⟩ := h
    unfold normLine
    rw [hs]
    show some (pyLower (pyStrip k) ++ sepKV ++ pyStrip v) = some l
    rw [h1, h2]
    exact congrArg some (splitFirst_eq hs).symm

theorem normStr_idem (s : Str) : normStr (normStr s) = normStr s := by
  have hmem : ∀ o ∈ (splitLines s).filterMap normLine,
      normLine o = some o ∧ '\n' ∉ o := by
    intro o ho
    rcases List.mem_filterMap.mp ho with ⟨line, hline, hno⟩
    have hnl : '\n' ∉ line := splitOnChar_not_mem '\n' s line hline
    exact ⟨normLine_out_fixed hno, normLine_no_newline hnl hno⟩
  cases hL : (splitLines s).filterMap normLine with
  | nil =>
    have h1 : normStr s = [] := by unfold normStr; rw [hL]; rfl
    rw [h1]
    rfl
  | cons o os =>
    have hne : (splitLines s).filterMap normLine ≠ [] := by rw [hL]; simp
    have h2 : splitLines (normStr s) = (splitLines s).filterMap normLine :=
      splitOnChar_joinLines _ hne (fun l hl => (hmem l hl).2)
    have h3 : normStr (normStr s) =
        joinLines ((splitLines (normStr s)).filterMap normLine) := rfl
    rw [h3, h2, filterMap_fixed (fun x hx => (hmem x hx).1)]
    rfl

theorem processRecord_file_name (mt now : Int) (n p m : Str) :
    (processRecord mt now n p m).file_name = n := by
  unfold processRecord
  split <;> rfl

theorem processRecord_file_path (mt now : Int) (n p m : Str) :
    (processRecord mt now n p m).file_path = p := by
  unfold processRecord
  split <;> rfl

theorem filter_map_upd {r : Row} :
    ∀ {st : List Row}, (st.map Row.file_name).Nodup →
      (st.map (fun x => if x.file_name = r.file_name then r else x)).filter
          (fun x => x.file_name = r.file_name) =
        if st.any (fun x => x.file_name = r.file_name) then [r] else [] := by
  intro st
  induction st with
  | nil => intro _; rfl
  | cons hd tl ih =>
    intro hnd
    rw [List.map_cons] at hnd
    have hnm := (List.nodup_cons.mp hnd).1
    have hnd2 := (List.nodup_cons.mp hnd).2
    by_cases h : hd.file_name = r.file_name
    · have htl : ∀ x ∈ tl, ¬ x.file_name = r.file_name := by
        intro x hx hxn
        exact hnm (List.mem_map.mpr ⟨x, hx, hxn.trans h.symm⟩)
      have hmap : tl.map (fun x => if x.file_name = r.file_name then r else x) =
          tl := by
        have := List.map_congr_left
          (f := fun x => if x.file_name = r.file_name then r else x)
          (g := id) (l := tl) (fun a ha => by simp [if_neg (htl a ha)])
        rw [this, List.map_id]
      have hfil : tl.filter (fun x => x.file_name = r.file_name) = [] :=
        List.filter_eq_nil_iff.mpr (fun a ha => by simp [htl a ha])
      have hany : (hd :: tl).any (fun x => x.file_name = r.file_name) = true :=
        List.any_eq_true.mpr ⟨hd, List.mem_cons_self _ _, by simp [h]⟩
      rw [List.map_cons, if_pos h, hmap, List.filter_cons, hany]
      simp [hfil]
    · have hany : (hd :: tl).any (fun x => x.file_name = r.file_name) =
          tl.any (fun x => x.file_name = r.file_name) := by
        simp [List.any_cons, h]
      rw [List.map_cons, if_neg h, List.filter_cons, hany]
      rw [if_neg (by simp [h])]
      exact ih hnd2

theorem upsert_filter {st : List Row} {r : Row} {n : Str}
    (hnd : (st.map Row.file_name).Nodup) (hm : r.file_name = n) :
    (upsertRow st r).filter (fun x => x.file_name = n) = [r] := by
  subst hm
  unfold upsertRow
  by_cases hany : st.any (fun x => x.file_name = r.file_name)
  · rw [if_pos hany, filter_map_upd hnd, if_pos hany]
  · rw [if_neg hany, List.filter_append]
    have h1 : st.filter (fun x => x.file_name = r.file_name) = [] := by
      apply List.filter_eq_nil_iff.mpr
      intro a ha
      have := List.any_eq_false.mp (Bool.eq_false_iff.mpr hany) a ha
      exact this
    rw [h1]
    simp

theorem upsert_nodup {st : List Row} {r : Row}
    (hnd : (st.map Row.file_name).Nodup) :
    ((upsertRow st r).map Row.file_name).Nodup := by
  unfold upsertRow
  by_cases hany : st.any (fun x => x.file_name = r.file_name)
  · rw [if_pos hany]
    have heq : (st.map (fun x => if x.file_name = r.file_name then r else x)).map
        Row.file_name = st.map Row.file_name := by
      rw [List.map_map]
      apply List.map_congr_left
      intro a _
      by_cases hx : a.file_name = r.file_name
      · simp only [Function.comp_apply, if_pos hx]
        exact hx.symm
      · simp only [Function.comp_apply, if_neg hx]
    rw [heq]
    exact hnd
  · rw [if_neg hany, List.map_append]
    rw [List.nodup_append]
    refine ⟨hnd, by simp, ?_⟩
    intro a ha hb
    simp only [List.map_cons, List.map_nil, List.mem_singleton] at hb
    subst hb
    rcases List.mem_map.mp ha with ⟨x, hx, hxa⟩
    have := List.any_eq_false.mp (Bool.eq_false_iff.mpr hany) x hx
    simp [hxa] at this

theorem find?_map_upd {r : Row} {p : Str} :
    ∀ {st : List Row}, (∀ x ∈ st, x.file_path ≠ p) → r.file_path = p →
      st.any (fun x => x.file_name = r.file_name) = true →
      (st.map (fun x => if x.file_name = r.file_name then r else x)).find?
        (fun x => x.file_path = p) = some r := by
  intro st
  induction st with
  | nil => intro _ _ h; simp at h
  | cons hd tl ih =>
    intro hnp hrp hany
    rw [List.map_cons, List.find?_cons]
    by_cases h : hd.file_name = r.file_name
    · rw [if_pos h]
      simp [hrp]
    · rw [if_neg h]
      have hf : decide (hd.file_path = p) = false := by
        simp [hnp hd (List.mem_cons_self _ _)]
      have hany' : tl.any (fun x => x.file_name = r.file_name) = true := by
        rcases List.any_eq_true.mp hany with ⟨x, hx, hpx⟩
        rcases List.mem_cons.mp hx with hh | hx'
        · subst hh
          exact absurd (of_decide_eq_true hpx) h
        · exact List.any_eq_true.mpr ⟨x, hx', hpx⟩
      simp only [hf]
      exact ih (fun x hx => hnp x (List.mem_cons_of_mem hd hx)) hrp hany'

theorem find?_upsert {st : List Row} {r : Row} {p : Str}
    (hnp : ∀ x ∈ st, x.file_path ≠ p) (hrp : r.file_path = p) :
    (upsertRow st r).find? (fun x => x.file_path = p) = some r := by
  unfold upsertRow
  by_cases hany : st.any (fun x => x.file_name = r.file_name)
  · rw [if_pos hany]
    exact find?_map_upd hnp hrp hany
  · rw [if_neg hany, List.find?_append]
    have h1 : st.find? (fun x => x.file_path = p) = none :=
      List.find?_eq_none.mpr (fun x hx => by simp [hnp x hx])
    rw [h1]
    simp [hrp]

/-- C1: upsert into the store is last-write-wins keyed by `file_name`: for
every store state (names unique, as the table's UNIQUE constraint enforces)
and every two records with the same `file_name`, upserting both via
`bulk_update_or_insert_metadata` leaves exactly one row for that name,
carrying the second record's path, metadata fields and timestamps; no
duplicate row is created. -/
theorem c1_upsert_last_write_wins
    (env : FsEnv) (now : Int) (st : List Row) (n p1 p2 m1 m2 : Str)
    (mt1 mt2 : Int) (hnd : (st.map Row.file_name).Nodup)
    (h1 : env.getmtime p1 = .ok mt1) (h2 : env.getmtime p2 = .ok mt2) :
    ∃ st', bulk_update_or_insert_metadata env now st [(n, p1, m1), (n, p2, m2)]
        = .ok st' ∧
      st'.filter (fun x => x.file_name = n) =
        [processRecord mt2 now n p2 m2] := by
  refine ⟨upsertRow (upsertRow st (processRecord mt1 now n p1 m1))
    (processRecord mt2 now n p2 m2), ?_, ?_⟩
  · simp [bulk_update_or_insert_metadata, h1, h2]
  · exact upsert_filter (upsert_nodup hnd) (processRecord_file_name _ _ _ _ _)

theorem c1_witness :
    ∃ st', bulk_update_or_insert_metadata ⟨fun _ => .ok 3⟩ 9 []
        [((("a.png").data), (("d/a.png").data), (("k: v").data)),
         ((("a.png").data), (("e/a.png").data), (("k: w").data))] = .ok st' ∧
      st'.filter (fun x => x.file_name = ("a.png").data) =
        [processRecord 3 9 (("a.png").data) (("e/a.png").data)
          (("k: w").data)] :=
  c1_upsert_last_write_wins ⟨fun _ => .ok 3⟩ 9 [] (("a.png").data)
    (("d/a.png").data) (("e/a.png").data) (("k: v").data) (("k: w").data)
    3 3 (by decide) rfl rfl

/-- C2: round trip: upserting a record with raw metadata
`"foo: 1\nNegative prompt: bar: 2"` stores primary `"foo: 1"` and secondary
`"bar: 2"`, and a subsequent `get_metadata` on the record's path returns
exactly that pair (the path being non-empty and not already used by another
row). -/
theorem c2_round_trip (env : FsEnv) (now mt : Int) (st : List Row) (n p : Str)
    (hp : p ≠ []) (hnp : ∀ x ∈ st, x.file_path ≠ p)
    (hmt : env.getmtime p = .ok mt) :
    ∃ st', bulk_update_or_insert_metadata env now st
        [(n, p, ("foo: 1\nNegative prompt: bar: 2").data)] = .ok st' ∧
      get_metadata none st' p =
        .ok (some (("foo: 1").data), some (("bar: 2").data)) := by
  refine ⟨upsertRow st
    (processRecord mt now n p (("foo: 1\nNegative prompt: bar: 2").data)),
    ?_, ?_⟩
  · simp [bulk_update_or_insert_metadata, hmt]
  · have hfind := find?_upsert hnp
      (processRecord_file_path mt now n p
        (("foo: 1\nNegative prompt: bar: 2").data))
    simp only [get_metadata]
    rw [if_neg hp]
    simp only [hfind]
    rfl

theorem c2_witness :
    ∃ st', bulk_update_or_insert_metadata ⟨fun _ => .ok 3⟩ 9 []
        [((("a.png").data), (("d/a.png").data),
          ("foo: 1\nNegative prompt: bar: 2").data)] = .ok st' ∧
      get_metadata none st' (("d/a.png").data) =
        .ok (some (("foo: 1").data), some (("bar: 2").data)) :=
  c2_round_trip ⟨fun _ => .ok 3⟩ 9 3 [] (("a.png").data) (("d/a.png").data)
    (by decide) (fun x hx => absurd hx (List.not_mem_nil x)) rfl

/-- C5: `update_file_path` on an `old_path` matching no row succeeds without
raising (`.ok`, only a warning is logged) and leaves every row of the store
unchanged. -/
theorem c5_rewrite_path_no_match (st : List Row) (old new : Str) (now : Int)
    (h : ∀ r ∈ st, r.file_path ≠ old) :
    update_file_path none st old new now = .ok st := by
  unfold update_file_path
  have heq := List.map_congr_left
    (f := fun r : Row =>
      if r.file_path = old then { r with file_path := new, last_updated := now }
      else r)
    (g := id) (l := st) (fun r hr => by simp [if_neg (h r hr)])
  rw [heq, List.map_id]

theorem c5_witness :
    update_file_path none
      [⟨("a.png").data, ("d/a.png").data, 1, some (("k: v").data),
        some [], 2⟩] (("missing.png").data) (("t/missing.png").data) 7 =
      .ok [⟨("a.png").data, ("d/a.png").data, 1, some (("k: v").data),
        some [], 2⟩] :=
  c5_rewrite_path_no_match _ _ _ 7 (by decide)

/-- C6 counterexample: a store failure during the single-row path rewrite
does NOT propagate to the caller: `update_file_path` catches and logs every
exception and returns normally (`.ok`, store unchanged), refuting the claim
that single-row operations propagate store errors. -/
theorem c6_counterexample :
    update_file_path (some "database is locked")
      [⟨("a.png").data, ("d/a.png").data, 1, some (("k: v").data),
        some [], 2⟩] (("d/a.png").data) (("t/a.png").data) 7 =
      .ok [⟨("a.png").data, ("d/a.png").data, 1, some (("k: v").data),
        some [], 2⟩] := rfl

/-- C6 (amended): a store failure during the point lookup `get_metadata`
propagates to the caller, while failures during `update_file_path` and
`batch_update_file_paths` are logged and swallowed: those calls return
normally and leave the store unchanged. -/
theorem c6_error_propagation (e : String) (st : List Row)
    (p old new : Str) (moves : List (Str × Str)) (now : Int) (hp : p ≠ []) :
    get_metadata (some e) st p = .error e ∧
    update_file_path (some e) st old new now = .ok st ∧
    batch_update_file_paths (some e) st moves now = .ok st := by
  refine ⟨?_, rfl, rfl⟩
  simp only [get_metadata]
  rw [if_neg hp]

theorem c6_witness :
    get_metadata (some "disk I/O error") [] (("x.png").data) =
        .error "disk I/O error" ∧
    update_file_path (some "disk I/O error") [] (("a").data) (("b").data) 5 =
        .ok [] ∧
    batch_update_file_paths (some "disk I/O error") [] [] 5 = .ok [] :=
  c6_error_propagation "disk I/O error" [] (("x.png").data) (("a").data)
    (("b").data) [] 5 (by decide)

/-- C7 counterexample: a batch in which the second record's modification time
cannot be read does not continue best-effort: the whole
`bulk_update_or_insert_metadata` call raises (the transaction rolls back, so
the first record is not written either), refuting per-record isolation. -/
theorem c7_counterexample :
    bulk_update_or_insert_metadata
      ⟨fun p => if p = ("good.png").data then .ok 1
        else .error "OSError: mtime"⟩ 9 []
      [((("g.png").data), (("good.png").data), (("k: v").data)),
       ((("b.png").data), (("bad.png").data), (("k: v").data))] =
      .error "OSError: mtime" := rfl

/-- C7 (amended): a record whose modification time cannot be read aborts the
whole batch: `bulk_update_or_insert_metadata` propagates the error, and since
the single transaction rolls back, no record of the batch is persisted. -/
theorem c7_mtime_failure_aborts_batch (env : FsEnv) (now : Int) (st : List Row)
    (recs : List (Str × Str × Str))
    (h : ∃ r ∈ recs, ∃ e, env.getmtime r.2.1 = .error e) :
    ∃ e', bulk_update_or_insert_metadata env now st recs = .error e' := by
  induction recs generalizing st with
  | nil =>
    rcases h with ⟨r, hr, _⟩
    simp at hr
  | cons rec rest ih =>
    obtain ⟨n, p, m⟩ := rec
    cases hmt : env.getmtime p with
    | error e => exact ⟨e, by simp [bulk_update_or_insert_metadata, hmt]⟩
    | ok mt =>
      rcases h with ⟨r, hr, e, he⟩
      rcases List.mem_cons.mp hr with hh | hr'
      · exfalso
        have he' : env.getmtime p = Except.error e := by rw [hh] at he; exact he
        rw [hmt] at he'
        simp at he'
      · rcases ih (upsertRow st (processRecord mt now n p m)) ⟨r, hr', e, he⟩
          with ⟨e', he'⟩
        exact ⟨e', by simp [bulk_update_or_insert_metadata, hmt, he']⟩

theorem c7_witness :
    ∃ e', bulk_update_or_insert_metadata ⟨fun _ => .error "OSError"⟩ 1 []
      [((("a.png").data), (("d/a.png").data), (("k: v").data))] =
      .error e' :=
  c7_mtime_failure_aborts_batch ⟨fun _ => .error "OSError"⟩ 1 [] _
    ⟨((("a.png").data), (("d/a.png").data), (("k: v").data)),
      List.mem_cons_self _ _, "OSError", rfl⟩

/-- C10 counterexample: for the raw metadata `": "` (which contains no
`"Negative prompt:"`), the upsert stores as primary metadata the
normalization of the STRIPPED raw text (`""`), not the normalization of the
entire raw text, which is `": "` itself. -/
theorem c10_counterexample :
    (processRecord 0 0 (("a.png").data) (("d/a.png").data)
        ((": ").data)).metadata = some [] ∧
    normStr ((": ").data) = (": ").data ∧
    some ([] : Str) ≠ some ((": ").data) :=
  ⟨rfl, rfl, by decide⟩

/-- C10 (amended): for every record whose raw metadata does not contain
`"Negative prompt:"`, the upsert stores as primary metadata the
normalization of the stripped raw text — never `None`/absent — and stores
the empty string, not an absent value, as secondary metadata. -/
theorem c10_no_delimiter_fields (mt now : Int) (n p raw : Str)
    (h : ¬ negPrompt <:+: raw) :
    (processRecord mt now n p raw).metadata = some (normStr (pyStrip raw)) ∧
    (processRecord mt now n p raw).metadata_after_prompt = some [] := by
  have hs : splitFirst negPrompt raw = none :=
    (splitFirst_none_iff (by decide)).mpr h
  unfold processRecord
  rw [hs]
  exact ⟨rfl, rfl⟩

theorem c10_witness :
    (processRecord 1 2 (("a.png").data) (("d/a.png").data)
        (("k: v").data)).metadata =
      some (normStr (pyStrip (("k: v").data))) ∧
    (processRecord 1 2 (("a.png").data) (("d/a.png").data)
        (("k: v").data)).metadata_after_prompt = some [] :=
  c10_no_delimiter_fields 1 2 (("a.png").data) (("d/a.png").data)
    (("k: v").data) (by decide)

/-- C8: a file whose store lookup yields no cached metadata, or whose cached
primary or secondary section is absent or empty, is neither moved nor
reported as an error: `process_file` returns the not-moved triple and the
store is unchanged. -/
theorem c8_skip_missing_metadata (st : List Row)
    (fp target k v mode : Str) (now : Int) (m ma : Option Str)
    (hg : get_metadata none st fp = .ok (m, ma))
    (h : truthy m = false ∨ truthy ma = false) :
    process_file none none st fp target k v mode now =
      ((false, fp, none), st) := by
  have hc : (truthy m && truthy ma) = false := by
    rcases h with h | h <;> simp [h]
  simp [process_file, hg, hc]

theorem c8_witness :
    process_file none none [] (("x.png").data) (("t").data) (("k").data)
      (("v").data) (("1").data) 5 = ((false, ("x.png").data, none), []) :=
  c8_skip_missing_metadata [] (("x.png").data) (("t").data) (("k").data)
    (("v").data) (("1").data) 5 none none rfl (Or.inl rfl)

/-- C3: for a file whose cached primary and secondary metadata are both
present and non-empty, and whose search key and value appear as substrings
only in the secondary metadata, search-and-move in mode 1 (primary-only
search text) does not move the file, while mode 2 (primary concatenated with
secondary) moves it to the target directory (same base name). -/
theorem c3_mode_semantics (st : List Row) (fp target k v : Str) (now : Int)
    (m ma : Str)
    (hg : get_metadata none st fp = .ok (some m, some ma))
    (hm : m ≠ []) (hma : ma ≠ [])
    (hk : k <:+: ma) (hv : v <:+: ma)
    (hkm : ¬ k <:+: m) (hvm : ¬ v <:+: m) :
    process_file none none st fp target k v (("1").data) now =
      ((false, fp, none), st) ∧
    (process_file none none st fp target k v (("2").data) now).1 =
      (true, fp, some (pyJoin target (basename fp))) := by
  have hme : m.isEmpty = false := by
    rw [← Bool.not_eq_true, List.isEmpty_iff]
    exact hm
  have hmae : ma.isEmpty = false := by
    rw [← Bool.not_eq_true, List.isEmpty_iff]
    exact hma
  have htm : truthy (some m) = true := by simp [truthy, hme]
  have htma : truthy (some ma) = true := by simp [truthy, hmae]
  have hsuf : ma <:+ m ++ ' ' :: ma := by
    have h0 := List.suffix_append (m ++ [' ']) ma
    rwa [List.append_assoc, List.singleton_append] at h0
  constructor
  · have hks : strContains k m = false := by
      rw [← Bool.not_eq_true, strContains_iff]
      exact hkm
    simp [process_file, hg, htm, htma, hks]
  · have hk2 : strContains k (m ++ ' ' :: ma) = true := by
      rw [strContains_iff]
      exact hk.trans hsuf.isInfix
    have hv2 : strContains v (m ++ ' ' :: ma) = true := by
      rw [strContains_iff]
      exact hv.trans hsuf.isInfix
    have hmode : ((("2").data : Str) = ("1").data) = False := by
      simp only [eq_iff_iff, iff_false]
      decide
    simp [process_file, hg, htm, htma, hk2, hv2, hmode, update_file_path]

theorem c3_witness :
    process_file none none
      [⟨("x.png").data, ("s/x.png").data, 1, some (("p: q").data),
        some (("steps: 5").data), 2⟩]
      (("s/x.png").data) (("t").data) (("steps").data) (("5").data)
      (("1").data) 7 =
      ((false, ("s/x.png").data, none),
        [⟨("x.png").data, ("s/x.png").data, 1, some (("p: q").data),
          some (("steps: 5").data), 2⟩]) ∧
    (process_file none none
      [⟨("x.png").data, ("s/x.png").data, 1, some (("p: q").data),
        some (("steps: 5").data), 2⟩]
      (("s/x.png").data) (("t").data) (("steps").data) (("5").data)
      (("2").data) 7).1 =
      (true, ("s/x.png").data,
        some (pyJoin (("t").data) (basename (("s/x.png").data)))) :=
  c3_mode_semantics
    [⟨("x.png").data, ("s/x.png").data, 1, some (("p: q").data),
      some (("steps: 5").data), 2⟩]
    (("s/x.png").data) (("t").data) (("steps").data) (("5").data) 7
    (("p: q").data) (("steps: 5").data) rfl (by decide) (by decide)
    (by decide) (by decide) (by decide) (by decide)

/-- C9: model extraction from secondary metadata: `"Model: foo, Steps: 20"`
yields model `"foo"`; an input containing
`Civitai resources: [{"modelName":"bar"}]` and no `Model:`/`model:` label
yields `"bar"` via the JSON fallback; an input whose text after
`"Civitai resources:"` is malformed JSON yields no model and
`extract_model_from_metadata` raises no exception (`.ok`). -/
theorem c9_model_extraction :
    extract_model_from_metadata (("Model: foo, Steps: 20").data) =
      .ok (some (("foo").data)) ∧
    extract_model_from_metadata
      (("Civitai resources: [\x7b\"modelName\":\"bar\"\x7d]").data) =
      .ok (some (("bar").data)) ∧
    extract_model_from_metadata (("Civitai resources: [garbage]").data) =
      .ok none :=
  ⟨rfl, rfl, rfl⟩

/-- C4: the metadata normalizer is idempotent —
`normalize_metadata (normalize_metadata x) = normalize_metadata x` for every
input — and a text whose every line is already of the canonical form
`lowercased-stripped-key: stripped-value` passes through unchanged. -/
theorem c4_normalizer_idempotent :
    (∀ x : Option Str,
      normalize_metadata (normalize_metadata x) = normalize_metadata x) ∧
    (∀ t : Str, (∀ l ∈ splitLines t, canonicalLine l = true) →
      normalize_metadata (some t) = some t) := by
  constructor
  · intro x
    cases x with
    | none => rfl
    | some s => exact congrArg some (normStr_idem s)
  · intro t h
    show some (normStr t) = some t
    have h1 : normStr t = joinLines ((splitLines t).filterMap normLine) := rfl
    rw [h1, filterMap_fixed (fun l hl => canonical_normLine (h l hl))]
    exact congrArg some (joinLines_splitOnChar t)

theorem c4_witness :
    normalize_metadata (normalize_metadata
        (some (("X : 1\nfree text\nSteps:  20").data))) =
      normalize_metadata (some (("X : 1\nfree text\nSteps:  20").data)) ∧
    normalize_metadata (some (("a: b\nsteps: 20").data)) =
      some (("a: b\nsteps: 20").data) :=
  ⟨c4_normalizer_idempotent.1 (some (("X : 1\nfree text\nSteps:  20").data)),
    c4_normalizer_idempotent.2 (("a: b\nsteps: 20").data) (by decide)⟩
